import Mathlib

/-!
Verification development for the MindMap repository.

This file gives a shallow embedding, in Lean, of the parts of the code that
the specification talks about, and proves (or refutes) the spec's claims
about them:

* the markdown linearizer of `client/src/lib/export-service.ts`
  (`exportMarkdown` and its inner recursive `addNodeToMarkdown`);
* the viewport coordinate transform and the zoom clamping of
  `mind-map-canvas.tsx` / `home-page.tsx`;
* the canvas pan gesture session (`handlePanStart` / `handlePanMove` /
  `handlePanEnd` and the effect that attaches the document listeners);
* the node drag session of `node-component.tsx`;
* the click handlers `handleCanvasClick` / `handleNodeClick`;
* default node placement in `handleAddNode`;
* the DELETE routes of `server/routes.ts` over `server/storage.ts`.

Real numbers from the source (JS numbers) are modelled as rationals, pixel
coordinates of pointer events as integers, and node/connection ids as an
arbitrary type with decidable equality.
-/

namespace MindMap

variable {α : Type} [DecidableEq α]

/-! ## Graph linearizer (export-service.ts, exportMarkdown) -/

/-- A node as far as the linearizer is concerned: its id and its text.
Other fields (position, size, shape, colors) do not influence which
entries are emitted or at which depth. -/
structure Node (α : Type) where
  id : α
  text : String
deriving DecidableEq, Repr

/-- A directed connection between two node ids (fields
`sourceNodeId` / `targetNodeId` of the source's `Connection`). -/
structure Connection (α : Type) where
  sourceNodeId : α
  targetNodeId : α
deriving DecidableEq, Repr

/-- The adjacency map built by `exportMarkdown`'s
`map.connections.forEach` loop: `connectionMap.get(id) || []` is the list
of targets of the connections whose source is `id`, in insertion order of
the connections. -/
def connectionMap (conns : List (Connection α)) (i : α) : List α :=
  (conns.filter (fun c => c.sourceNodeId = i)).map (fun c => c.targetNodeId)

/-- The set of ids appearing as some connection's target
(`hasIncoming` in the source). -/
def hasIncoming (conns : List (Connection α)) : List α :=
  conns.map (fun c => c.targetNodeId)

/-- Root nodes: nodes whose id has no incoming connection
(`rootNodes` in the source). -/
def rootNodes (nodes : List (Node α)) (conns : List (Connection α)) : List (Node α) :=
  nodes.filter (fun n => !decide (n.id ∈ hasIncoming conns))

theorem prodLex_of_le_of_lt {m n k j : Nat} (h1 : m ≤ n) (h2 : k < j) :
    Prod.Lex (· < ·) (· < ·) (m, k) (n, j) := by
  rcases lt_or_eq_of_le h1 with h | h
  · exact Prod.Lex.left _ _ h
  · subst h
    exact Prod.Lex.right _ h2

theorem sdiff_insert_card_lt {ids visited : Finset α} {i : α}
    (h1 : i ∈ ids) (h2 : i ∉ visited) :
    (ids \ insert i visited).card < (ids \ visited).card := by
  apply Finset.card_lt_card
  constructor
  · exact Finset.sdiff_subset_sdiff le_rfl (Finset.subset_insert _ _)
  · intro hsub
    have hmem : i ∈ ids \ visited := Finset.mem_sdiff.mpr ⟨h1, h2⟩
    have := hsub hmem
    rw [Finset.mem_sdiff] at this
    exact this.2 (Finset.mem_insert_self _ _)

mutual

/-- Shallow embedding of the recursive closure `addNodeToMarkdown(nodeId,
level)` of `exportMarkdown`.  Instead of appending markdown text it
returns the list of emitted `(nodeId, level)` entries (one per emitted
bullet line) together with the final `visited` set.  `ids` is the key set
of `nodeMap` (the ids of the map's nodes); `cmap` is `connectionMap`.
Mirrors the source exactly: return if already visited; mark visited; if
the id is not a node, return without emitting; otherwise emit the node and
recurse into its children at `level + 1`. -/
def addNodeToMarkdown (ids : Finset α) (cmap : α → List α) (nodeId : α) (level : Nat)
    (visited : Finset α) : Finset α × List (α × Nat) :=
  if nodeId ∈ visited then (visited, [])
  else if nodeId ∈ ids then
    let r := addChildren ids cmap (cmap nodeId) (level + 1) (insert nodeId visited)
    (r.1, (nodeId, level) :: r.2)
  else (insert nodeId visited, [])
termination_by ((ids \ visited).card, 0)
decreasing_by
  exact Prod.Lex.left _ _ (sdiff_insert_card_lt (by assumption) (by assumption))

/-- Sequential calls of `addNodeToMarkdown` on each element of a list
(the `children.forEach` loop, and also the two top-level loops of
`exportMarkdown`), threading the visited set and concatenating the
emitted entries.  The recursive call uses `visited ∪ r1.1`; since the
visited set only grows (`visited_subset_addNodeToMarkdown` below) this
equals `r1.1`, exactly as in the source. -/
def addChildren (ids : Finset α) (cmap : α → List α) (children : List α) (level : Nat)
    (visited : Finset α) : Finset α × List (α × Nat) :=
  match children with
  | [] => (visited, [])
  | c :: rest =>
    let r1 := addNodeToMarkdown ids cmap c level visited
    let r2 := addChildren ids cmap rest level (visited ∪ r1.1)
    (r2.1, r1.2 ++ r2.2)
termination_by ((ids \ visited).card, children.length + 1)
decreasing_by
  · exact prodLex_of_le_of_lt le_rfl (by simp)
  · exact prodLex_of_le_of_lt
      (Finset.card_le_card (Finset.sdiff_subset_sdiff le_rfl Finset.subset_union_left))
      (by simp)

end

theorem addNodeToMarkdown_eq (ids : Finset α) (cmap : α → List α) (i : α) (l : Nat)
    (v : Finset α) :
    addNodeToMarkdown ids cmap i l v =
      if i ∈ v then (v, [])
      else if i ∈ ids then
        ((addChildren ids cmap (cmap i) (l + 1) (insert i v)).1,
         (i, l) :: (addChildren ids cmap (cmap i) (l + 1) (insert i v)).2)
      else (insert i v, []) := by
  rw [addNodeToMarkdown]

theorem addChildren_nil (ids : Finset α) (cmap : α → List α) (l : Nat) (v : Finset α) :
    addChildren ids cmap [] l v = (v, []) := by
  rw [addChildren]

theorem addChildren_cons_raw (ids : Finset α) (cmap : α → List α) (c : α) (rest : List α)
    (l : Nat) (v : Finset α) :
    addChildren ids cmap (c :: rest) l v =
      ((addChildren ids cmap rest l (v ∪ (addNodeToMarkdown ids cmap c l v).1)).1,
       (addNodeToMarkdown ids cmap c l v).2 ++
         (addChildren ids cmap rest l (v ∪ (addNodeToMarkdown ids cmap c l v).1)).2) := by
  rw [addChildren]

/-- Hand-rolled simultaneous induction principle for the two mutually
recursive traversal functions, by strong induction on the number of
unvisited node ids. -/
theorem dfs_induct (ids : Finset α) (cmap : α → List α)
    (Pn : α → Nat → Finset α → Prop) (Pc : List α → Nat → Finset α → Prop)
    (h1 : ∀ i l v, i ∈ v → Pn i l v)
    (h2 : ∀ i l v, i ∉ v → i ∈ ids → Pc (cmap i) (l + 1) (insert i v) → Pn i l v)
    (h3 : ∀ i l v, i ∉ v → i ∉ ids → Pn i l v)
    (h4 : ∀ l v, Pc [] l v)
    (h5 : ∀ c rest l v, Pn c l v →
        Pc rest l (v ∪ (addNodeToMarkdown ids cmap c l v).1) → Pc (c :: rest) l v) :
    (∀ i l v, Pn i l v) ∧ (∀ ch l v, Pc ch l v) := by
  have hch : ∀ (n : Nat), (∀ i l v, (ids \ v).card ≤ n → Pn i l v) →
      ∀ ch l v, (ids \ v).card ≤ n → Pc ch l v := by
    intro n hn ch
    induction ch with
    | nil => intro l v _; exact h4 l v
    | cons c rest ih =>
      intro l v hcard
      apply h5 c rest l v (hn c l v hcard)
      apply ih
      calc (ids \ (v ∪ (addNodeToMarkdown ids cmap c l v).1)).card
          ≤ (ids \ v).card :=
            Finset.card_le_card (Finset.sdiff_subset_sdiff le_rfl Finset.subset_union_left)
        _ ≤ n := hcard
  have hn : ∀ (n : Nat), ∀ i l v, (ids \ v).card ≤ n → Pn i l v := by
    intro n
    induction n with
    | zero =>
      intro i l v hcard
      by_cases hv : i ∈ v
      · exact h1 i l v hv
      · by_cases hid : i ∈ ids
        · exfalso
          have hmem : i ∈ ids \ v := Finset.mem_sdiff.mpr ⟨hid, hv⟩
          have hpos : 0 < (ids \ v).card := Finset.card_pos.mpr ⟨i, hmem⟩
          omega
        · exact h3 i l v hv hid
    | succ n ihn =>
      intro i l v hcard
      by_cases hv : i ∈ v
      · exact h1 i l v hv
      · by_cases hid : i ∈ ids
        · apply h2 i l v hv hid
          apply hch n ihn
          have hlt := sdiff_insert_card_lt hid hv
          omega
        · exact h3 i l v hv hid
  constructor
  · intro i l v
    exact hn (ids \ v).card i l v le_rfl
  · intro ch l v
    exact hch (ids \ v).card (fun j m w hw => hn (ids \ v).card j m w hw) ch l v le_rfl

/-- The visited set only grows through the traversal. -/
theorem visited_subset (ids : Finset α) (cmap : α → List α) :
    (∀ i l v, v ⊆ (addNodeToMarkdown ids cmap i l v).1) ∧
    (∀ ch l v, v ⊆ (addChildren ids cmap ch l v).1) := by
  apply dfs_induct ids cmap
  · intro i l v hv
    rw [addNodeToMarkdown_eq, if_pos hv]
  · intro i l v hv hid hrec
    rw [addNodeToMarkdown_eq, if_neg hv, if_pos hid]
    exact Finset.Subset.trans (Finset.subset_insert _ _) hrec
  · intro i l v hv hid
    rw [addNodeToMarkdown_eq, if_neg hv, if_neg hid]
    exact Finset.subset_insert _ _
  · intro l v
    rw [addChildren_nil]
  · intro c rest l v _ hrec
    rw [addChildren_cons_raw]
    exact Finset.Subset.trans Finset.subset_union_left hrec

theorem visited_subset_addNodeToMarkdown (ids : Finset α) (cmap : α → List α) (i : α)
    (l : Nat) (v : Finset α) : v ⊆ (addNodeToMarkdown ids cmap i l v).1 :=
  (visited_subset ids cmap).1 i l v

theorem visited_subset_addChildren (ids : Finset α) (cmap : α → List α) (ch : List α)
    (l : Nat) (v : Finset α) : v ⊆ (addChildren ids cmap ch l v).1 :=
  (visited_subset ids cmap).2 ch l v

/-- Clean unfolding of the cons case: the union with the previous visited
set is redundant because the visited set only grows. -/
theorem addChildren_cons (ids : Finset α) (cmap : α → List α) (c : α) (rest : List α)
    (l : Nat) (v : Finset α) :
    addChildren ids cmap (c :: rest) l v =
      ((addChildren ids cmap rest l (addNodeToMarkdown ids cmap c l v).1).1,
       (addNodeToMarkdown ids cmap c l v).2 ++
         (addChildren ids cmap rest l (addNodeToMarkdown ids cmap c l v).1).2) := by
  rw [addChildren_cons_raw,
    Finset.union_eq_right.mpr (visited_subset_addNodeToMarkdown ids cmap c l v)]

/-- Invariant tying a traversal result to its starting visited set: every
emitted entry is a node id that was not yet visited, no id is emitted
twice, and the node ids visited by the call are exactly the previously
visited ones plus the emitted ones. -/
def EntriesOk (ids v : Finset α) (r : Finset α × List (α × Nat)) : Prop :=
  (∀ e ∈ r.2, e.1 ∈ ids ∧ e.1 ∉ v) ∧
  (r.2.map Prod.fst).Nodup ∧
  r.1 ∩ ids = v ∩ ids ∪ (r.2.map Prod.fst).toFinset

theorem entries_ok (ids : Finset α) (cmap : α → List α) :
    (∀ i l v, EntriesOk ids v (addNodeToMarkdown ids cmap i l v)) ∧
    (∀ ch l v, EntriesOk ids v (addChildren ids cmap ch l v)) := by
  apply dfs_induct ids cmap
  · intro i l v hv
    rw [EntriesOk, addNodeToMarkdown_eq, if_pos hv]
    simp
  · intro i l v hv hid hrec
    obtain ⟨he, hnd, hvis⟩ := hrec
    rw [EntriesOk, addNodeToMarkdown_eq, if_neg hv, if_pos hid]
    refine ⟨?_, ?_, ?_⟩
    · intro e hmem
      rcases List.mem_cons.mp hmem with h | h
      · subst h
        exact ⟨hid, hv⟩
      · obtain ⟨h1, h2⟩ := he e h
        exact ⟨h1, fun hx => h2 (Finset.mem_insert_of_mem hx)⟩
    · simp only [List.map_cons, List.nodup_cons]
      refine ⟨?_, hnd⟩
      intro hmem
      rcases List.mem_map.mp hmem with ⟨e, hmem2, heq⟩
      exact (he e hmem2).2 (heq ▸ Finset.mem_insert_self _ _)
    · simp only [List.map_cons, List.toFinset_cons]
      rw [hvis, Finset.insert_inter_of_mem hid, Finset.insert_union, Finset.union_insert]
  · intro i l v hv hid
    rw [EntriesOk, addNodeToMarkdown_eq, if_neg hv, if_neg hid]
    simp [Finset.insert_inter_of_not_mem hid]
  · intro l v
    rw [EntriesOk, addChildren_nil]
    simp
  · intro c rest l v hn hc
    rw [Finset.union_eq_right.mpr (visited_subset_addNodeToMarkdown ids cmap c l v)] at hc
    obtain ⟨he1, hnd1, hvis1⟩ := hn
    obtain ⟨he2, hnd2, hvis2⟩ := hc
    rw [EntriesOk, addChildren_cons]
    have hsub1 : v ⊆ (addNodeToMarkdown ids cmap c l v).1 :=
      visited_subset_addNodeToMarkdown ids cmap c l v
    refine ⟨?_, ?_, ?_⟩
    · intro e hmem
      rcases List.mem_append.mp hmem with h | h
      · exact he1 e h
      · obtain ⟨h1, h2⟩ := he2 e h
        exact ⟨h1, fun hx => h2 (hsub1 hx)⟩
    · rw [List.map_append, List.nodup_append]
      refine ⟨hnd1, hnd2, ?_⟩
      intro x hx1 hx2
      rcases List.mem_map.mp hx1 with ⟨e, hmem1, heq1⟩
      rcases List.mem_map.mp hx2 with ⟨f, hmem2, heq2⟩
      have hx_in : x ∈ (addNodeToMarkdown ids cmap c l v).1 ∩ ids := by
        rw [hvis1]
        apply Finset.mem_union_right
        rw [List.mem_toFinset]
        exact heq1 ▸ List.mem_map_of_mem Prod.fst hmem1
      exact (he2 f hmem2).2 (heq2 ▸ (Finset.mem_inter.mp hx_in).1)
    · rw [List.map_append, List.toFinset_append, hvis2, hvis1, Finset.union_assoc]

/-- Every id fed into the traversal ends up in the visited set. -/
theorem arg_mem_visited (ids : Finset α) (cmap : α → List α) :
    (∀ i l v, i ∈ (addNodeToMarkdown ids cmap i l v).1) ∧
    (∀ ch l v, ∀ c ∈ ch, c ∈ (addChildren ids cmap ch l v).1) := by
  apply dfs_induct ids cmap
  · intro i l v hv
    rw [addNodeToMarkdown_eq, if_pos hv]
    exact hv
  · intro i l v hv hid _
    rw [addNodeToMarkdown_eq, if_neg hv, if_pos hid]
    exact visited_subset_addChildren ids cmap _ _ _ (Finset.mem_insert_self _ _)
  · intro i l v hv hid
    rw [addNodeToMarkdown_eq, if_neg hv, if_neg hid]
    exact Finset.mem_insert_self _ _
  · intro l v
    simp
  · intro c rest l v hn hc
    rw [Finset.union_eq_right.mpr (visited_subset_addNodeToMarkdown ids cmap c l v)] at hc
    intro x hx
    rw [addChildren_cons]
    rcases List.mem_cons.mp hx with h | h
    · subst h
      exact visited_subset_addChildren ids cmap _ _ _ hn
    · exact hc x h

/-- A call on an id that is not a node emits nothing and leaves the
visited set unchanged as far as node ids are concerned (this is the
`if (!node) return` branch: no error is raised). -/
theorem addNode_notin_ids (ids : Finset α) (cmap : α → List α) {i : α} (l : Nat)
    (v : Finset α) (hid : i ∉ ids) :
    (addNodeToMarkdown ids cmap i l v).2 = [] ∧
    (addNodeToMarkdown ids cmap i l v).1 ∩ ids = v ∩ ids := by
  rw [addNodeToMarkdown_eq]
  by_cases hv : i ∈ v
  · rw [if_pos hv]
    exact ⟨rfl, rfl⟩
  · rw [if_neg hv, if_neg hid]
    exact ⟨rfl, Finset.insert_inter_of_not_mem hid⟩

theorem sdiff_eq_of_inter_eq {ids v1 v2 : Finset α} (h : v1 ∩ ids = v2 ∩ ids) :
    ids \ v1 = ids \ v2 := by
  ext x
  simp only [Finset.mem_sdiff]
  constructor
  · rintro ⟨hx, hnx⟩
    refine ⟨hx, fun hx2 => hnx ?_⟩
    have : x ∈ v2 ∩ ids := Finset.mem_inter.mpr ⟨hx2, hx⟩
    rw [← h] at this
    exact (Finset.mem_inter.mp this).1
  · rintro ⟨hx, hnx⟩
    refine ⟨hx, fun hx2 => hnx ?_⟩
    have : x ∈ v1 ∩ ids := Finset.mem_inter.mpr ⟨hx2, hx⟩
    rw [h] at this
    exact (Finset.mem_inter.mp this).1

/-- Relation: the first list is the second with extra elements outside
`ids` interspersed. -/
inductive ExtraNonIds (ids : Finset α) : List α → List α → Prop
  | nil : ExtraNonIds ids [] []
  | cons (c : α) {l1 l2 : List α} : ExtraNonIds ids l1 l2 → ExtraNonIds ids (c :: l1) (c :: l2)
  | extra {c : α} {l1 l2 : List α} : c ∉ ids → ExtraNonIds ids l1 l2 →
      ExtraNonIds ids (c :: l1) l2

omit [DecidableEq α] in
theorem ExtraNonIds.rfl (ids : Finset α) : ∀ l : List α, ExtraNonIds ids l l := by
  intro l
  induction l with
  | nil => exact ExtraNonIds.nil
  | cons c rest ih => exact ExtraNonIds.cons c ih

omit [DecidableEq α] in
theorem ExtraNonIds.append_left (ids : Finset α) {l1 l2 : List α} (p : List α)
    (h : ExtraNonIds ids l1 l2) : ExtraNonIds ids (p ++ l1) (p ++ l2) := by
  induction p with
  | nil => exact h
  | cons c rest ih => exact ExtraNonIds.cons c ih

/-- Simulation: running the traversal with extra non-node children in the
adjacency map (and a visited set that agrees on node ids) emits exactly
the same entries.  Non-node ids are silently marked visited and skipped,
nothing else. -/
theorem dfs_sim (ids : Finset α) (cmap1 cmap2 : α → List α)
    (hc : ∀ i ∈ ids, ExtraNonIds ids (cmap1 i) (cmap2 i)) :
    (∀ i l v1 v2, v1 ∩ ids = v2 ∩ ids →
      (addNodeToMarkdown ids cmap1 i l v1).2 = (addNodeToMarkdown ids cmap2 i l v2).2 ∧
      (addNodeToMarkdown ids cmap1 i l v1).1 ∩ ids
        = (addNodeToMarkdown ids cmap2 i l v2).1 ∩ ids) ∧
    (∀ ch1 ch2 l v1 v2, ExtraNonIds ids ch1 ch2 → v1 ∩ ids = v2 ∩ ids →
      (addChildren ids cmap1 ch1 l v1).2 = (addChildren ids cmap2 ch2 l v2).2 ∧
      (addChildren ids cmap1 ch1 l v1).1 ∩ ids
        = (addChildren ids cmap2 ch2 l v2).1 ∩ ids) := by
  have hch : ∀ n : Nat,
      (∀ i l v1 v2, (ids \ v1).card ≤ n → v1 ∩ ids = v2 ∩ ids →
        (addNodeToMarkdown ids cmap1 i l v1).2 = (addNodeToMarkdown ids cmap2 i l v2).2 ∧
        (addNodeToMarkdown ids cmap1 i l v1).1 ∩ ids
          = (addNodeToMarkdown ids cmap2 i l v2).1 ∩ ids) →
      ∀ ch1 ch2 l v1 v2, ExtraNonIds ids ch1 ch2 → (ids \ v1).card ≤ n →
        v1 ∩ ids = v2 ∩ ids →
        (addChildren ids cmap1 ch1 l v1).2 = (addChildren ids cmap2 ch2 l v2).2 ∧
        (addChildren ids cmap1 ch1 l v1).1 ∩ ids
          = (addChildren ids cmap2 ch2 l v2).1 ∩ ids := by
    intro n hn ch1 ch2 l v1 v2 hrel
    induction hrel generalizing v1 v2 with
    | nil =>
      intro _ hv
      rw [addChildren_nil, addChildren_nil]
      exact ⟨Eq.refl [], hv⟩
    | cons c hrel2 ih =>
      intro hcard hv
      rename_i l1 l2
      rw [addChildren_cons, addChildren_cons]
      have hnode := hn c l v1 v2 hcard hv
      have hcard2 : (ids \ (addNodeToMarkdown ids cmap1 c l v1).1).card ≤ n := by
        calc (ids \ (addNodeToMarkdown ids cmap1 c l v1).1).card
            ≤ (ids \ v1).card :=
              Finset.card_le_card
                (Finset.sdiff_subset_sdiff le_rfl
                  (visited_subset_addNodeToMarkdown ids cmap1 c l v1))
          _ ≤ n := hcard
      have hrest := ih (addNodeToMarkdown ids cmap1 c l v1).1
        (addNodeToMarkdown ids cmap2 c l v2).1 hcard2 hnode.2
      exact ⟨by rw [hnode.1, hrest.1], hrest.2⟩
    | extra hcnot hrel2 ih =>
      intro hcard hv
      rename_i c l1 l2
      rw [addChildren_cons]
      have hnode := addNode_notin_ids ids cmap1 l v1 hcnot
      have hcard2 : (ids \ (addNodeToMarkdown ids cmap1 c l v1).1).card ≤ n := by
        calc (ids \ (addNodeToMarkdown ids cmap1 c l v1).1).card
            ≤ (ids \ v1).card :=
              Finset.card_le_card
                (Finset.sdiff_subset_sdiff le_rfl
                  (visited_subset_addNodeToMarkdown ids cmap1 c l v1))
          _ ≤ n := hcard
      have hrest := ih (addNodeToMarkdown ids cmap1 c l v1).1 v2 hcard2 (hnode.2.trans hv)
      exact ⟨by rw [hnode.1, hrest.1, List.nil_append], hrest.2⟩
  have hn : ∀ n : Nat, ∀ i l v1 v2, (ids \ v1).card ≤ n → v1 ∩ ids = v2 ∩ ids →
      (addNodeToMarkdown ids cmap1 i l v1).2 = (addNodeToMarkdown ids cmap2 i l v2).2 ∧
      (addNodeToMarkdown ids cmap1 i l v1).1 ∩ ids
        = (addNodeToMarkdown ids cmap2 i l v2).1 ∩ ids := by
    intro n
    induction n with
    | zero =>
      intro i l v1 v2 hcard hv
      by_cases hid : i ∈ ids
      · have hv1 : i ∈ v1 := by
          by_contra hnv
          have hmem : i ∈ ids \ v1 := Finset.mem_sdiff.mpr ⟨hid, hnv⟩
          have hpos : 0 < (ids \ v1).card := Finset.card_pos.mpr ⟨i, hmem⟩
          omega
        have hv2 : i ∈ v2 := by
          have : i ∈ v1 ∩ ids := Finset.mem_inter.mpr ⟨hv1, hid⟩
          rw [hv] at this
          exact (Finset.mem_inter.mp this).1
        rw [addNodeToMarkdown_eq, addNodeToMarkdown_eq, if_pos hv1, if_pos hv2]
        exact ⟨Eq.refl [], hv⟩
      · have h1 := addNode_notin_ids ids cmap1 l v1 hid
        have h2 := addNode_notin_ids ids cmap2 l v2 hid
        rw [h1.1, h2.1, h1.2, h2.2]
        exact ⟨Eq.refl [], hv⟩
    | succ n ihn =>
      intro i l v1 v2 hcard hv
      by_cases hid : i ∈ ids
      · by_cases hv1 : i ∈ v1
        · have hv2 : i ∈ v2 := by
            have : i ∈ v1 ∩ ids := Finset.mem_inter.mpr ⟨hv1, hid⟩
            rw [hv] at this
            exact (Finset.mem_inter.mp this).1
          rw [addNodeToMarkdown_eq, addNodeToMarkdown_eq, if_pos hv1, if_pos hv2]
          exact ⟨Eq.refl [], hv⟩
        · have hv2 : i ∉ v2 := by
            intro hx
            apply hv1
            have : i ∈ v2 ∩ ids := Finset.mem_inter.mpr ⟨hx, hid⟩
            rw [← hv] at this
            exact (Finset.mem_inter.mp this).1
          rw [addNodeToMarkdown_eq, addNodeToMarkdown_eq, if_neg hv1, if_neg hv2,
            if_pos hid, if_pos hid]
          have hvins : insert i v1 ∩ ids = insert i v2 ∩ ids := by
            rw [Finset.insert_inter_of_mem hid, Finset.insert_inter_of_mem hid, hv]
          have hcard2 : (ids \ insert i v1).card ≤ n := by
            have := sdiff_insert_card_lt hid hv1
            omega
          have hrec := hch n ihn (cmap1 i) (cmap2 i) (l + 1) (insert i v1) (insert i v2)
            (hc i hid) hcard2 hvins
          exact ⟨by rw [hrec.1], hrec.2⟩
      · have h1 := addNode_notin_ids ids cmap1 l v1 hid
        have h2 := addNode_notin_ids ids cmap2 l v2 hid
        rw [h1.1, h2.1, h1.2, h2.2]
        exact ⟨Eq.refl [], hv⟩
  constructor
  · intro i l v1 v2 hv
    exact hn (ids \ v1).card i l v1 v2 le_rfl hv
  · intro ch1 ch2 l v1 v2 hrel hv
    exact hch (ids \ v1).card (fun j m w1 w2 hw hvv => hn (ids \ v1).card j m w1 w2 hw hvv)
      ch1 ch2 l v1 v2 hrel le_rfl hv

/-- The full linearization performed by `exportMarkdown`: first a DFS from
each root node (in the nodes' order), then a sweep over all nodes picking
up anything not yet visited, both at level 0.  The source guards the
second sweep with `if (!visited.has(node.id))`, which is redundant because
`addNodeToMarkdown` begins with the same check. -/
def exportEntries (nodes : List (Node α)) (conns : List (Connection α)) : List (α × Nat) :=
  let ids := (nodes.map Node.id).toFinset
  let cmap := connectionMap conns
  let r1 := addChildren ids cmap ((rootNodes nodes conns).map Node.id) 0 ∅
  let r2 := addChildren ids cmap (nodes.map Node.id) 0 r1.1
  r1.2 ++ r2.2

theorem exportEntries_ids_spec (nodes : List (Node α)) (conns : List (Connection α)) :
    ((exportEntries nodes conns).map Prod.fst).Nodup ∧
    ((exportEntries nodes conns).map Prod.fst).toFinset = (nodes.map Node.id).toFinset := by
  obtain ⟨he1, hnd1, hvis1⟩ := (entries_ok (nodes.map Node.id).toFinset (connectionMap conns)).2
    ((rootNodes nodes conns).map Node.id) 0 ∅
  obtain ⟨he2, hnd2, hvis2⟩ := (entries_ok (nodes.map Node.id).toFinset (connectionMap conns)).2
    (nodes.map Node.id) 0
    (addChildren (nodes.map Node.id).toFinset (connectionMap conns)
      ((rootNodes nodes conns).map Node.id) 0 ∅).1
  set ids := (nodes.map Node.id).toFinset with hids
  set cmap := connectionMap conns with hcmap
  set r1 := addChildren ids cmap ((rootNodes nodes conns).map Node.id) 0 ∅ with hr1
  set r2 := addChildren ids cmap (nodes.map Node.id) 0 r1.1 with hr2
  have hE : exportEntries nodes conns = r1.2 ++ r2.2 := rfl
  have hset1 : r1.1 ∩ ids = (r1.2.map Prod.fst).toFinset := by
    rw [hvis1]
    simp
  have hcov : ∀ x ∈ nodes.map Node.id, x ∈ r2.1 :=
    (arg_mem_visited ids cmap).2 (nodes.map Node.id) 0 r1.1
  have hmem1 : ∀ x ∈ r1.2.map Prod.fst, x ∈ r1.1 := by
    intro x hx
    have hx2 : x ∈ (r1.2.map Prod.fst).toFinset := List.mem_toFinset.mpr hx
    rw [← hset1] at hx2
    exact (Finset.mem_inter.mp hx2).1
  have hndE : ((exportEntries nodes conns).map Prod.fst).Nodup := by
    rw [hE, List.map_append, List.nodup_append]
    refine ⟨hnd1, hnd2, ?_⟩
    intro x hx1 hx2
    rcases List.mem_map.mp hx2 with ⟨f, hmem2, heq2⟩
    exact (he2 f hmem2).2 (heq2 ▸ hmem1 x hx1)
  refine ⟨hndE, ?_⟩
  rw [hE]
  apply Finset.Subset.antisymm
  · intro x hx
    rw [List.mem_toFinset, List.map_append, List.mem_append] at hx
    rcases hx with h | h
    · rcases List.mem_map.mp h with ⟨e, hmem, heq⟩
      exact heq ▸ (he1 e hmem).1
    · rcases List.mem_map.mp h with ⟨e, hmem, heq⟩
      exact heq ▸ (he2 e hmem).1
  · intro x hx
    have hx1 : x ∈ nodes.map Node.id := List.mem_toFinset.mp hx
    have hx2 : x ∈ r2.1 ∩ ids := Finset.mem_inter.mpr ⟨hcov x hx1, hx⟩
    rw [hvis2] at hx2
    rw [List.mem_toFinset, List.map_append, List.mem_append]
    rcases Finset.mem_union.mp hx2 with h | h
    · rw [hset1] at h
      exact Or.inl (List.mem_toFinset.mp h)
    · exact Or.inr (List.mem_toFinset.mp h)

/-- C1: for every finite set of nodes (a list with pairwise distinct ids)
and every list of connections — possibly cyclic, disconnected,
multi-rooted, with endpoints outside the node set — the linearization of
`exportMarkdown` emits every node of the node set exactly once, and the
number of emitted entries equals the node count. -/
theorem c1_linearize_emits_each_node_once (nodes : List (Node α))
    (conns : List (Connection α)) (hnd : (nodes.map Node.id).Nodup) :
    (exportEntries nodes conns).length = nodes.length ∧
    ∀ n ∈ nodes, ((exportEntries nodes conns).map Prod.fst).count n.id = 1 := by
  obtain ⟨hndE, htf⟩ := exportEntries_ids_spec nodes conns
  constructor
  · have hA : ((exportEntries nodes conns).map Prod.fst).toFinset.card
        = ((exportEntries nodes conns).map Prod.fst).length :=
      List.toFinset_card_of_nodup hndE
    have hB : (nodes.map Node.id).toFinset.card = (nodes.map Node.id).length :=
      List.toFinset_card_of_nodup hnd
    rw [htf, hB, List.length_map] at hA
    rw [List.length_map] at hA
    exact hA.symm
  · intro n hn
    apply List.count_eq_one_of_mem hndE
    have h1 : n.id ∈ nodes.map Node.id := List.mem_map_of_mem Node.id hn
    have h2 : n.id ∈ ((exportEntries nodes conns).map Prod.fst).toFinset := by
      rw [htf]
      exact List.mem_toFinset.mpr h1
    exact List.mem_toFinset.mp h2

/-- Witness for C1 on the spec's pure cycle `A→B, B→C, C→A`. -/
theorem c1_witness :
    ((([⟨0, "A"⟩, ⟨1, "B"⟩, ⟨2, "C"⟩] : List (Node Nat)).map Node.id).Nodup) ∧
    ((exportEntries ([⟨0, "A"⟩, ⟨1, "B"⟩, ⟨2, "C"⟩] : List (Node Nat))
        ([⟨0, 1⟩, ⟨1, 2⟩, ⟨2, 0⟩] : List (Connection Nat))).length = 3 ∧
      ∀ n ∈ ([⟨0, "A"⟩, ⟨1, "B"⟩, ⟨2, "C"⟩] : List (Node Nat)),
        ((exportEntries ([⟨0, "A"⟩, ⟨1, "B"⟩, ⟨2, "C"⟩] : List (Node Nat))
            ([⟨0, 1⟩, ⟨1, 2⟩, ⟨2, 0⟩] : List (Connection Nat))).map Prod.fst).count n.id = 1) :=
  ⟨by decide, c1_linearize_emits_each_node_once _ _ (by decide)⟩

/-- C9: on a single root `a` with connections `a→b` then `a→c` given in
that order, linearization places `b` and `c` both at depth 1, in the
insertion order of the connections. -/
theorem c9_children_insertion_order (a b c : α) (hab : a ≠ b) (hac : a ≠ c) (hbc : b ≠ c) :
    exportEntries ([⟨a, "A"⟩, ⟨b, "B"⟩, ⟨c, "C"⟩] : List (Node α))
        ([⟨a, b⟩, ⟨a, c⟩] : List (Connection α)) =
      [(a, 0), (b, 1), (c, 1)] := by
  have hba : b ≠ a := hab.symm
  have hca : c ≠ a := hac.symm
  have hcb : c ≠ b := hbc.symm
  simp [exportEntries, rootNodes, hasIncoming, connectionMap,
    addNodeToMarkdown_eq, addChildren_cons, addChildren_nil,
    hab, hac, hbc, hba, hca, hcb]

/-- Witness for C9 at node ids 0, 1, 2. -/
theorem c9_witness :
    (0 : Nat) ≠ 1 ∧ (0 : Nat) ≠ 2 ∧ (1 : Nat) ≠ 2 ∧
    exportEntries ([⟨0, "A"⟩, ⟨1, "B"⟩, ⟨2, "C"⟩] : List (Node Nat))
        ([⟨0, 1⟩, ⟨0, 2⟩] : List (Connection Nat)) =
      [(0, 0), (1, 1), (2, 1)] :=
  ⟨by decide, by decide, by decide,
    c9_children_insertion_order 0 1 2 (by decide) (by decide) (by decide)⟩

/-- Lookup of a node by id (`map.nodes.find(n => n.id === …)`). -/
def findNode (nodes : List (Node α)) (i : α) : Option (Node α) :=
  nodes.find? (fun n => decide (n.id = i))

theorem exportEntries_eq (nodes : List (Node α)) (conns : List (Connection α)) :
    exportEntries nodes conns =
      (addChildren (nodes.map Node.id).toFinset (connectionMap conns)
        ((rootNodes nodes conns).map Node.id) 0 ∅).2 ++
      (addChildren (nodes.map Node.id).toFinset (connectionMap conns) (nodes.map Node.id) 0
        (addChildren (nodes.map Node.id).toFinset (connectionMap conns)
          ((rootNodes nodes conns).map Node.id) 0 ∅).1).2 := rfl

theorem rootNodes_remove_dangling_target (nodes : List (Node α))
    (l1 l2 : List (Connection α)) (c : Connection α)
    (hct : c.targetNodeId ∉ nodes.map Node.id) :
    rootNodes nodes (l1 ++ c :: l2) = rootNodes nodes (l1 ++ l2) := by
  unfold rootNodes
  apply List.filter_congr
  intro n hn
  have hne : n.id ≠ c.targetNodeId := fun h => hct (h ▸ List.mem_map_of_mem Node.id hn)
  simp [hasIncoming, hne]

theorem connectionMap_remove_dangling_target (nodes : List (Node α))
    (l1 l2 : List (Connection α)) (c : Connection α)
    (hct : c.targetNodeId ∉ nodes.map Node.id) (i : α) :
    ExtraNonIds (nodes.map Node.id).toFinset
      (connectionMap (l1 ++ c :: l2) i) (connectionMap (l1 ++ l2) i) := by
  have hct2 : c.targetNodeId ∉ (nodes.map Node.id).toFinset :=
    fun h => hct (List.mem_toFinset.mp h)
  unfold connectionMap
  rw [List.filter_append, List.filter_append, List.filter_cons]
  by_cases hs : c.sourceNodeId = i
  · rw [if_pos (by simp [hs]), List.map_append, List.map_append, List.map_cons]
    exact ExtraNonIds.append_left _ _ (ExtraNonIds.extra hct2 (ExtraNonIds.rfl _ _))
  · rw [if_neg (by simp [hs])]
    exact ExtraNonIds.rfl _ _

/-- Removing a connection whose target id is not a node of the map leaves
the linearization unchanged. -/
theorem exportEntries_remove_dangling_target (nodes : List (Node α))
    (l1 l2 : List (Connection α)) (c : Connection α)
    (hct : c.targetNodeId ∉ nodes.map Node.id) :
    exportEntries nodes (l1 ++ c :: l2) = exportEntries nodes (l1 ++ l2) := by
  have hroot := rootNodes_remove_dangling_target nodes l1 l2 c hct
  have hsim := dfs_sim (nodes.map Node.id).toFinset (connectionMap (l1 ++ c :: l2))
    (connectionMap (l1 ++ l2))
    (fun i _ => connectionMap_remove_dangling_target nodes l1 l2 c hct i)
  have h1 := hsim.2 ((rootNodes nodes (l1 ++ c :: l2)).map Node.id)
    ((rootNodes nodes (l1 ++ l2)).map Node.id) 0 ∅ ∅
    (by rw [hroot]; exact ExtraNonIds.rfl _ _) rfl
  have h2 := hsim.2 (nodes.map Node.id) (nodes.map Node.id) 0
    (addChildren (nodes.map Node.id).toFinset (connectionMap (l1 ++ c :: l2))
      ((rootNodes nodes (l1 ++ c :: l2)).map Node.id) 0 ∅).1
    (addChildren (nodes.map Node.id).toFinset (connectionMap (l1 ++ l2))
      ((rootNodes nodes (l1 ++ l2)).map Node.id) 0 ∅).1
    (ExtraNonIds.rfl _ _) h1.2
  rw [exportEntries_eq, exportEntries_eq, h1.1, h2.1]

/-- Whether a connection is renderable: both endpoints found among the
map's nodes (the `if (!sourceNode || !targetNode) return null` guard of
the canvas SVG rendering, and the `if (sourceNode && targetNode)` guard
of the markdown connections section). -/
def renderableConnection (nodes : List (Node α)) (c : Connection α) : Bool :=
  (findNode nodes c.sourceNodeId).isSome && (findNode nodes c.targetNodeId).isSome

/-- The connections actually drawn by the canvas (those not mapped to
`null`). -/
def renderedConnections (nodes : List (Node α)) (conns : List (Connection α)) :
    List (Connection α) :=
  conns.filter (renderableConnection nodes)

/-- The `## Connections` section of the markdown export: one
source-target pair per connection with both endpoints present. -/
def connectionsSection (nodes : List (Node α)) (conns : List (Connection α)) :
    List (α × α) :=
  (renderedConnections nodes conns).map (fun c => (c.sourceNodeId, c.targetNodeId))

theorem not_renderable_of_missing (nodes : List (Node α)) (c : Connection α)
    (hmiss : c.sourceNodeId ∉ nodes.map Node.id ∨ c.targetNodeId ∉ nodes.map Node.id) :
    renderableConnection nodes c = false := by
  unfold renderableConnection findNode
  rcases hmiss with h | h
  · have hnone : nodes.find? (fun n => decide (n.id = c.sourceNodeId)) = none := by
      rw [List.find?_eq_none]
      intro a ha
      simp only [decide_eq_true_eq]
      exact fun heq => h (heq ▸ List.mem_map_of_mem Node.id ha)
    rw [hnone]
    rfl
  · have hnone : nodes.find? (fun n => decide (n.id = c.targetNodeId)) = none := by
      rw [List.find?_eq_none]
      intro a ha
      simp only [decide_eq_true_eq]
      exact fun heq => h (heq ▸ List.mem_map_of_mem Node.id ha)
    rw [hnone]
    simp

/-- Counterexample to C8 as stated: a connection `9→2` whose source id 9
is not a node is NOT fully excluded from linearization.  It still marks
node 2 as having an incoming edge, so node 2 stops being a root and the
output depths change: with the dangling connection the output is
`[(1,0), (2,0)]`, without it `[(2,0), (1,1)]`. -/
theorem c8_counterexample :
    exportEntries ([⟨1, "A"⟩, ⟨2, "B"⟩] : List (Node Nat))
        ([⟨9, 2⟩, ⟨2, 1⟩] : List (Connection Nat)) ≠
      exportEntries ([⟨1, "A"⟩, ⟨2, "B"⟩] : List (Node Nat))
        ([⟨2, 1⟩] : List (Connection Nat)) := by
  have h1 : exportEntries ([⟨1, "A"⟩, ⟨2, "B"⟩] : List (Node Nat))
      ([⟨9, 2⟩, ⟨2, 1⟩] : List (Connection Nat)) = [(1, 0), (2, 0)] := by
    simp [exportEntries, rootNodes, hasIncoming, connectionMap,
      addNodeToMarkdown_eq, addChildren_cons, addChildren_nil]
  have h2 : exportEntries ([⟨1, "A"⟩, ⟨2, "B"⟩] : List (Node Nat))
      ([⟨2, 1⟩] : List (Connection Nat)) = [(2, 0), (1, 1)] := by
    simp [exportEntries, rootNodes, hasIncoming, connectionMap,
      addNodeToMarkdown_eq, addChildren_cons, addChildren_nil]
  rw [h1, h2]
  decide

/-- C8 amended: a connection with a missing endpoint is excluded from
drawing (and hence from the markdown connections section, which iterates
over the renderable connections only); linearization never emits an entry
for an id outside the node set and raises no error; and a connection
whose TARGET id is missing leaves the linearization entirely unchanged.
(A connection whose source id is missing can still change which nodes are
roots, see `c8_counterexample`.) -/
theorem c8_missing_endpoint_behavior (nodes : List (Node α)) (conns : List (Connection α))
    (c : Connection α)
    (hmiss : c.sourceNodeId ∉ nodes.map Node.id ∨ c.targetNodeId ∉ nodes.map Node.id) :
    c ∉ renderedConnections nodes conns ∧
    (∀ e ∈ exportEntries nodes conns, e.1 ∈ nodes.map Node.id) ∧
    (c.targetNodeId ∉ nodes.map Node.id → ∀ l1 l2, conns = l1 ++ c :: l2 →
      exportEntries nodes conns = exportEntries nodes (l1 ++ l2)) := by
  refine ⟨?_, ?_, ?_⟩
  · intro hmem
    have := (List.mem_filter.mp hmem).2
    rw [not_renderable_of_missing nodes c hmiss] at this
    exact Bool.false_ne_true this
  · intro e he
    have h1 : e.1 ∈ (exportEntries nodes conns).map Prod.fst :=
      List.mem_map_of_mem Prod.fst he
    have h2 := (exportEntries_ids_spec nodes conns).2
    have h3 : e.1 ∈ ((exportEntries nodes conns).map Prod.fst).toFinset :=
      List.mem_toFinset.mpr h1
    rw [h2] at h3
    exact List.mem_toFinset.mp h3
  · intro hct l1 l2 hconns
    rw [hconns]
    exact exportEntries_remove_dangling_target nodes l1 l2 c hct

/-- Witness for the amended C8 at a concrete dangling connection. -/
theorem c8_witness :
    ((2 : Nat) ∉ ([⟨1, "A"⟩] : List (Node Nat)).map Node.id ∨
      (3 : Nat) ∉ ([⟨1, "A"⟩] : List (Node Nat)).map Node.id) ∧
    ((⟨2, 3⟩ : Connection Nat) ∉
        renderedConnections ([⟨1, "A"⟩] : List (Node Nat))
          ([⟨2, 3⟩] : List (Connection Nat)) ∧
      (∀ e ∈ exportEntries ([⟨1, "A"⟩] : List (Node Nat))
          ([⟨2, 3⟩] : List (Connection Nat)), e.1 ∈ ([⟨1, "A"⟩] : List (Node Nat)).map Node.id) ∧
      ((3 : Nat) ∉ ([⟨1, "A"⟩] : List (Node Nat)).map Node.id →
        ∀ l1 l2, ([⟨2, 3⟩] : List (Connection Nat)) = l1 ++ (⟨2, 3⟩ : Connection Nat) :: l2 →
          exportEntries ([⟨1, "A"⟩] : List (Node Nat)) ([⟨2, 3⟩] : List (Connection Nat)) =
            exportEntries ([⟨1, "A"⟩] : List (Node Nat)) (l1 ++ l2))) :=
  ⟨by decide,
    c8_missing_endpoint_behavior ([⟨1, "A"⟩] : List (Node Nat))
      ([⟨2, 3⟩] : List (Connection Nat)) (⟨2, 3⟩ : Connection Nat) (by decide)⟩

/-! ## Viewport coordinate transform (mind-map-canvas.tsx) -/

/-- Screen position of a logical point under the canvas CSS transform
`translate(panOffset) scale(zoomLevel)` applied to the nodes container
and the connections SVG. -/
def toScreen (panOffset : ℚ × ℚ) (zoom : ℚ) (p : ℚ × ℚ) : ℚ × ℚ :=
  (p.1 * zoom + panOffset.1, p.2 * zoom + panOffset.2)

/-- Logical position recovered from a screen position, as computed by
`handleNodeMove`: `logicalX = (x - panOffset.x) / zoomLevel` (same
formula in `handleAddNode`). -/
def toLogical (panOffset : ℚ × ℚ) (zoom : ℚ) (q : ℚ × ℚ) : ℚ × ℚ :=
  ((q.1 - panOffset.1) / zoom, (q.2 - panOffset.2) / zoom)

/-- C2: for every logical point and every viewport state with zoom in
the invariant range, converting to screen coordinates and back returns
the point exactly (the model is over rationals, so the floating-point
tolerance of the claim is met exactly). -/
theorem c2_viewport_roundtrip (panOffset : ℚ × ℚ) (zoom : ℚ) (p : ℚ × ℚ)
    (h1 : 1 / 10 ≤ zoom) (_h2 : zoom ≤ 3) :
    toLogical panOffset zoom (toScreen panOffset zoom p) = p := by
  have hz : zoom ≠ 0 := ne_of_gt (lt_of_lt_of_le (by norm_num) h1)
  unfold toScreen toLogical
  rw [Prod.mk.injEq]
  constructor <;> field_simp

/-- Witness for C2 at pan (5, 7), zoom 2, point (3, 4). -/
theorem c2_witness :
    (1 / 10 : ℚ) ≤ 2 ∧ (2 : ℚ) ≤ 3 ∧
    toLogical (5, 7) 2 (toScreen (5, 7) 2 (3, 4)) = (3, 4) :=
  ⟨by norm_num, by norm_num,
    c2_viewport_roundtrip (5, 7) 2 (3, 4) (by norm_num) (by norm_num)⟩

/-! ## Zoom operations (handleWheel, handleZoomIn, handleZoomOut) -/

/-- `handleWheel`: factor 0.9 for a positive deltaY, 1.1 otherwise, and
the product is clamped into [0.1, 3]. -/
def handleWheelZoom (zoomLevel deltaY : ℚ) : ℚ :=
  max (1 / 10) (min 3 (zoomLevel * (if deltaY > 0 then (9 : ℚ) / 10 else 11 / 10)))

/-- Toolbar zoom-in button (`handleZoomIn` in home-page.tsx):
`min(prev * 1.2, 3)`. -/
def handleZoomIn (prev : ℚ) : ℚ := min (prev * (12 / 10)) 3

/-- Toolbar zoom-out button (`handleZoomOut` in home-page.tsx):
`max(prev / 1.2, 0.1)`. -/
def handleZoomOut (prev : ℚ) : ℚ := max (prev / (12 / 10)) (1 / 10)

/-- C10: starting from any zoom in [0.1, 3], every zoom operation (wheel
tick of either sign and both toolbar buttons) lands back in [0.1, 3]. -/
theorem c10_zoom_clamped (z : ℚ) (h1 : 1 / 10 ≤ z) (h2 : z ≤ 3) :
    (∀ deltaY : ℚ, 1 / 10 ≤ handleWheelZoom z deltaY ∧ handleWheelZoom z deltaY ≤ 3) ∧
    (1 / 10 ≤ handleZoomIn z ∧ handleZoomIn z ≤ 3) ∧
    (1 / 10 ≤ handleZoomOut z ∧ handleZoomOut z ≤ 3) := by
  refine ⟨fun d => ⟨le_max_left _ _, ?_⟩, ⟨?_, min_le_right _ _⟩, ⟨le_max_right _ _, ?_⟩⟩
  · exact max_le (by norm_num) (min_le_left _ _)
  · apply le_min _ (by norm_num)
    nlinarith
  · apply max_le _ (by norm_num)
    rw [div_le_iff₀ (by norm_num)]
    nlinarith

/-- Witness for C10 at zoom 1. -/
theorem c10_witness :
    (1 / 10 : ℚ) ≤ 1 ∧ (1 : ℚ) ≤ 3 ∧
    ((∀ deltaY : ℚ, 1 / 10 ≤ handleWheelZoom 1 deltaY ∧ handleWheelZoom 1 deltaY ≤ 3) ∧
      (1 / 10 ≤ handleZoomIn 1 ∧ handleZoomIn 1 ≤ 3) ∧
      (1 / 10 ≤ handleZoomOut 1 ∧ handleZoomOut 1 ≤ 3)) :=
  ⟨by norm_num, by norm_num, c10_zoom_clamped 1 (by norm_num) (by norm_num)⟩

/-! ## Default node placement (handleAddNode) -/

/-- Placement computed by `handleAddNode`: the center of the visible rect
is converted to logical coordinates, the node is centered on it (minus
half the default 120 by 60 node size), a grid offset derived from the
current node count is added, and each axis is clamped to a minimum of
20. -/
def handleAddNodePos (rectW rectH panX panY zoom : ℚ) (nodeCount : Nat) : ℚ × ℚ :=
  let centerX := rectW / 2
  let centerY := rectH / 2
  let x0 := (centerX - panX) / zoom - 60
  let y0 := (centerY - panY) / zoom - 30
  let x1 := x0 + (((nodeCount % 3 : Nat) : ℚ) * 160 - 160)
  let y1 := y0 + (((nodeCount / 3 : Nat) : ℚ) * 120 - 60)
  (max 20 x1, max 20 y1)

/-- C4: a default-created node is placed at the logical viewport center
(its top-left is the center minus half the default node size), offset by
`(n mod 3) * 160 - 160` horizontally and `floor(n / 3) * 120 - 60`
vertically, each axis clamped to a minimum of 20 — hence both
coordinates are at least 20; and the fourth node (n = 3) sits one full
row (offset +60) below the viewport center row. -/
theorem c4_default_placement (rectW rectH panX panY zoom : ℚ) (n : Nat) :
    handleAddNodePos rectW rectH panX panY zoom n =
      (max 20 ((rectW / 2 - panX) / zoom - 60 + (((n % 3 : Nat) : ℚ) * 160 - 160)),
       max 20 ((rectH / 2 - panY) / zoom - 30 + (((n / 3 : Nat) : ℚ) * 120 - 60))) ∧
    20 ≤ (handleAddNodePos rectW rectH panX panY zoom n).1 ∧
    20 ≤ (handleAddNodePos rectW rectH panX panY zoom n).2 ∧
    (handleAddNodePos rectW rectH panX panY zoom 3).2
      = max 20 ((rectH / 2 - panY) / zoom - 30 + 60) := by
  refine ⟨rfl, le_max_left _ _, le_max_left _ _, ?_⟩
  norm_num [handleAddNodePos]

/-! ## DELETE routes (routes.ts over DatabaseStorage) -/

/-- Stored node and connection ids (the rows relevant to the
delete-by-id routes). -/
structure StorageState (α : Type) where
  nodes : List α
  connections : List α
deriving DecidableEq, Repr

/-- HTTP outcome of a delete route. -/
inductive ApiStatus
  | noContent204
  | notFound404
deriving DecidableEq, Repr

/-- `DatabaseStorage.deleteNode`: delete the rows with the given id and
report `rowCount > 0`, i.e. whether the id was present. -/
def deleteNode (s : StorageState α) (id : α) : Bool × StorageState α :=
  (decide (id ∈ s.nodes),
   { s with nodes := s.nodes.filter (fun i => !decide (i = id)) })

/-- `DatabaseStorage.deleteConnection`, same shape. -/
def deleteConnection (s : StorageState α) (id : α) : Bool × StorageState α :=
  (decide (id ∈ s.connections),
   { s with connections := s.connections.filter (fun i => !decide (i = id)) })

/-- DELETE /api/nodes/:id — responds 404 when storage reports that
nothing was deleted, 204 otherwise. -/
def deleteNodeRoute (s : StorageState α) (id : α) : ApiStatus × StorageState α :=
  ((if (deleteNode s id).1 then ApiStatus.noContent204 else ApiStatus.notFound404),
   (deleteNode s id).2)

/-- DELETE /api/connections/:id, same shape. -/
def deleteConnectionRoute (s : StorageState α) (id : α) : ApiStatus × StorageState α :=
  ((if (deleteConnection s id).1 then ApiStatus.noContent204 else ApiStatus.notFound404),
   (deleteConnection s id).2)

/-- Counterexample to C5 as stated: deleting node id 1 twice, the second
delete responds 404 Not Found, which is a failure from the caller's
perspective, not a succeeding no-op. -/
theorem c5_counterexample :
    (deleteNodeRoute (deleteNodeRoute (⟨[1], []⟩ : StorageState Nat) 1).2 1).1
        = ApiStatus.notFound404 ∧
    ApiStatus.notFound404 ≠ ApiStatus.noContent204 := by
  decide

theorem filter_ne_idempotent (l : List α) (id : α) :
    (l.filter (fun i => !decide (i = id))).filter (fun i => !decide (i = id))
      = l.filter (fun i => !decide (i = id)) := by
  rw [List.filter_filter]
  apply List.filter_congr
  intro a _
  exact Bool.and_self _

theorem not_mem_filter_ne (l : List α) (id : α) :
    id ∉ l.filter (fun i => !decide (i = id)) := by
  simp

/-- C5 amended: a delete responds 204 exactly when the id is present, and
a repeated delete of an already-deleted id leaves the stored data
unchanged (a no-op on the data) but responds 404 Not Found — it does not
succeed.  Both for nodes and for connections. -/
theorem c5_repeat_delete_404 (s : StorageState α) (id : α) :
    ((deleteNodeRoute s id).1
        = if id ∈ s.nodes then ApiStatus.noContent204 else ApiStatus.notFound404) ∧
    deleteNodeRoute (deleteNodeRoute s id).2 id
        = (ApiStatus.notFound404, (deleteNodeRoute s id).2) ∧
    ((deleteConnectionRoute s id).1
        = if id ∈ s.connections then ApiStatus.noContent204 else ApiStatus.notFound404) ∧
    deleteConnectionRoute (deleteConnectionRoute s id).2 id
        = (ApiStatus.notFound404, (deleteConnectionRoute s id).2) := by
  refine ⟨?_, ?_, ?_, ?_⟩
  · by_cases h : id ∈ s.nodes <;> simp [deleteNodeRoute, deleteNode, h]
  · simp [deleteNodeRoute, deleteNode, not_mem_filter_ne, filter_ne_idempotent]
  · by_cases h : id ∈ s.connections <;> simp [deleteConnectionRoute, deleteConnection, h]
  · simp [deleteConnectionRoute, deleteConnection, not_mem_filter_ne, filter_ne_idempotent]

/-! ## Canvas click and pending-connection session (mind-map-canvas.tsx) -/

/-- The selection / pending-connection state: the selected node (owned by
the page and set through `onSelectNode`), the pending connection source
(`connectionStartNode`), and the connections created so far by
`createConnectionMutation`. -/
structure ClickState (α : Type) where
  selectedNodeId : Option α
  connectionStartNode : Option α
  createdConnections : List (α × α)
deriving DecidableEq, Repr

/-- `handleCanvasClick`: when the click target is the canvas surface
itself, the node selection is cleared — and nothing else changes. -/
def handleCanvasClick (targetIsCanvas : Bool) (st : ClickState α) : ClickState α :=
  if targetIsCanvas then { st with selectedNodeId := none } else st

/-- `handleNodeClick`: a modifier-click starts a pending connection,
cancels it when the same node is clicked again, or completes it into a
created connection (its `onSuccess` clears the pending source, modelled
as immediate); a plain click selects the node and drops the pending
source. -/
def handleNodeClick (st : ClickState α) (nodeId : α) (isCtrlKey : Bool) : ClickState α :=
  if isCtrlKey then
    match st.connectionStartNode with
    | none => { st with connectionStartNode := some nodeId }
    | some s =>
      if s = nodeId then { st with connectionStartNode := none }
      else { st with createdConnections := st.createdConnections ++ [(s, nodeId)],
                     connectionStartNode := none }
  else { st with selectedNodeId := some nodeId, connectionStartNode := none }

/-- Counterexample to C6 as stated: with node 1 selected and node 2
recorded as pending connection source, a plain click on the empty canvas
leaves the pending source in place (it stays `some 2`, it is not
cancelled). -/
theorem c6_counterexample :
    (handleCanvasClick true (⟨some 1, some 2, []⟩ : ClickState Nat)).connectionStartNode
        = some 2 ∧
    some 2 ≠ (none : Option Nat) := by
  decide

/-- C6 amended: a plain click on the empty canvas clears the node
selection, creates no connection and leaves the pending connection
source unchanged (not cancelled).  The pending source is cancelled by a
modifier-click on the same node, or by a plain click on any node. -/
theorem c6_canvas_click_behavior (st : ClickState α) (sel : Option α) (p n : α)
    (conns : List (α × α)) :
    ((handleCanvasClick true st).selectedNodeId = none ∧
      (handleCanvasClick true st).connectionStartNode = st.connectionStartNode ∧
      (handleCanvasClick true st).createdConnections = st.createdConnections) ∧
    handleNodeClick (⟨sel, some p, conns⟩ : ClickState α) p true
        = (⟨sel, none, conns⟩ : ClickState α) ∧
    handleNodeClick st n false
        = { st with selectedNodeId := some n, connectionStartNode := none } := by
  refine ⟨⟨?_, ?_, ?_⟩, ?_, ?_⟩ <;> simp [handleCanvasClick, handleNodeClick]

/-! ## Pan gesture session (mind-map-canvas.tsx) -/

/-- Pointer kind as reported by `e.pointerType`. -/
inductive PointerKind
  | mouse
  | touch
deriving DecidableEq, Repr

/-- The fields of a pointer event that the pan handlers read. -/
structure PointerEv where
  button : Nat
  shiftKey : Bool
  pointerType : PointerKind
  clientX : Int
  clientY : Int
deriving DecidableEq, Repr

/-- The canvas pan session state (`isPanning`, `panStart`, `panOffset`). -/
structure PanState where
  isPanning : Bool
  panStart : Int × Int
  panOffset : Int × Int
deriving DecidableEq, Repr

/-- `handlePanStart` (the canvas's own `onPointerDown`): middle button or
shift-click starts panning immediately; a touch pointer-down only records
the start position (the comment says: to allow tap-to-deselect). -/
def handlePanStart (st : PanState) (e : PointerEv) : PanState :=
  if e.button = 1 ∨ (e.button = 0 ∧ e.shiftKey) then
    { st with isPanning := true,
              panStart := (e.clientX - st.panOffset.1, e.clientY - st.panOffset.2) }
  else if e.pointerType = PointerKind.touch then
    { st with panStart := (e.clientX - st.panOffset.1, e.clientY - st.panOffset.2) }
  else st

/-- `handlePanMove`: for a touch event in a not-yet-panning session, set
the panning flag once the Manhattan distance from the pointer-down point
exceeds 10 px; then update the pan offset — but only if the session was
already panning when the event arrived (the second `if` reads the same
render-time `isPanning` value as the first, so the threshold-crossing
move itself does not pan). -/
def handlePanMove (st : PanState) (e : PointerEv) : PanState :=
  let moveDistance := (e.clientX - (st.panStart.1 + st.panOffset.1)).natAbs
      + (e.clientY - (st.panStart.2 + st.panOffset.2)).natAbs
  let st1 := if ¬st.isPanning ∧ e.pointerType = PointerKind.touch ∧ moveDistance > 10
    then { st with isPanning := true } else st
  if ¬st.isPanning then st1
  else { st1 with panOffset := (e.clientX - st.panStart.1, e.clientY - st.panStart.2) }

/-- `handlePanEnd`. -/
def handlePanEnd (st : PanState) : PanState := { st with isPanning := false }

/-- A pointer event as seen by the canvas session. -/
inductive CanvasEvent
  | down (e : PointerEv)
  | move (e : PointerEv)
  | up
deriving DecidableEq, Repr

/-- Dispatch of one event as the component is actually wired:
`pointerdown` always reaches `handlePanStart` (the canvas's own handler),
while `pointermove` / `pointerup` reach `handlePanMove` / `handlePanEnd`
only while the document listeners are attached — and the effect attaches
them only when `isPanning` is already true. -/
def canvasPointerStep (st : PanState) (ev : CanvasEvent) : PanState :=
  match ev with
  | CanvasEvent.down e => handlePanStart st e
  | CanvasEvent.move e => if st.isPanning then handlePanMove st e else st
  | CanvasEvent.up => if st.isPanning then handlePanEnd st else st

/-- A whole pointer session from a given state. -/
def runCanvasSession (st : PanState) (evs : List CanvasEvent) : PanState :=
  evs.foldl canvasPointerStep st

/-- C3, a code bug: the threshold logic of `handlePanMove` does implement
the spec — fed directly with a touch move 11 px away it sets the panning
flag, and at exactly 10 px it does not (second and third conjunct) — but
in the session as wired the move listener is only attached once panning
is already true, so after a touch pointer-down and an 11 px move the
session is still not panning (first conjunct): touch panning never
engages at all. -/
theorem c3_touch_pan_threshold_dead :
    (runCanvasSession ⟨false, (0, 0), (0, 0)⟩
        [CanvasEvent.down ⟨0, false, PointerKind.touch, 0, 0⟩,
         CanvasEvent.move ⟨0, false, PointerKind.touch, 11, 0⟩]).isPanning = false ∧
    (handlePanMove
        (handlePanStart ⟨false, (0, 0), (0, 0)⟩ ⟨0, false, PointerKind.touch, 0, 0⟩)
        ⟨0, false, PointerKind.touch, 11, 0⟩).isPanning = true ∧
    (handlePanMove
        (handlePanStart ⟨false, (0, 0), (0, 0)⟩ ⟨0, false, PointerKind.touch, 0, 0⟩)
        ⟨0, false, PointerKind.touch, 10, 0⟩).isPanning = false := by
  decide

/-! ## Node drag session (node-component.tsx) -/

/-- The drag session state of a `NodeComponent`: the dragging flag, the
captured pointer offset, the ephemeral visual position written to
`style.left`/`style.top`, and the list of `onMove` commits issued (each
one is exactly one `updateNodeMutation` call, the persistence
collaborator). -/
structure DragState where
  isDragging : Bool
  dragStart : Int × Int
  visualPos : Option (Int × Int)
  moveCommits : List (Int × Int)
deriving DecidableEq, Repr

/-- State before the pointer-down. -/
def startDragState : DragState := ⟨false, (0, 0), none, []⟩

/-- `handlePointerDown`: ctrl/meta-click is connection handling (no
drag); otherwise the drag starts, capturing the offset between the
pointer and the node's position. -/
def nodePointerDown (nodePos : Int × Int) (st : DragState) (ctrlKey : Bool)
    (cx cy : Int) : DragState :=
  if ctrlKey then st
  else { st with isDragging := true, dragStart := (cx - nodePos.1, cy - nodePos.2) }

/-- `handlePointerMove`: updates only the visual position; no call to the
persistence layer. -/
def nodePointerMove (st : DragState) (cx cy : Int) : DragState :=
  if ¬st.isDragging then st
  else { st with visualPos := some (cx - st.dragStart.1, cy - st.dragStart.2) }

/-- `handlePointerUp`: ends the drag and issues the single `onMove`
commit with the final position. -/
def nodePointerUp (st : DragState) (cx cy : Int) : DragState :=
  if ¬st.isDragging then st
  else { st with isDragging := false,
                 moveCommits := st.moveCommits ++ [(cx - st.dragStart.1, cy - st.dragStart.2)] }

/-- Pointer events of a node drag session. -/
inductive DragEvent
  | down (ctrlKey : Bool) (cx cy : Int)
  | move (cx cy : Int)
  | up (cx cy : Int)
deriving DecidableEq, Repr

/-- Dispatch as wired in `NodeComponent`: move/up document listeners are
attached only while dragging. -/
def dragStep (nodePos : Int × Int) (st : DragState) (ev : DragEvent) : DragState :=
  match ev with
  | DragEvent.down ctrl cx cy => nodePointerDown nodePos st ctrl cx cy
  | DragEvent.move cx cy => if st.isDragging then nodePointerMove st cx cy else st
  | DragEvent.up cx cy => if st.isDragging then nodePointerUp st cx cy else st

/-- A whole drag session from the initial state. -/
def runDrag (nodePos : Int × Int) (evs : List DragEvent) : DragState :=
  evs.foldl (dragStep nodePos) startDragState

/-- Move/up events only (a single drag session has one pointer-down). -/
inductive MoveUpEvent
  | move (cx cy : Int)
  | up (cx cy : Int)
deriving DecidableEq, Repr

/-- Injection into drag events. -/
def MoveUpEvent.toDragEvent : MoveUpEvent → DragEvent
  | MoveUpEvent.move cx cy => DragEvent.move cx cy
  | MoveUpEvent.up cx cy => DragEvent.up cx cy

theorem dragMoves_no_commit (nodePos : Int × Int) (ms : List (Int × Int)) :
    ∀ st : DragState, st.isDragging = true →
      ((ms.map (fun m => DragEvent.move m.1 m.2)).foldl (dragStep nodePos) st).isDragging = true ∧
      ((ms.map (fun m => DragEvent.move m.1 m.2)).foldl (dragStep nodePos) st).dragStart
        = st.dragStart ∧
      ((ms.map (fun m => DragEvent.move m.1 m.2)).foldl (dragStep nodePos) st).moveCommits
        = st.moveCommits := by
  induction ms with
  | nil =>
    intro st h
    exact ⟨h, rfl, rfl⟩
  | cons m rest ih =>
    intro st h
    have hstep : dragStep nodePos st (DragEvent.move m.1 m.2)
        = { st with visualPos := some (m.1 - st.dragStart.1, m.2 - st.dragStart.2) } := by
      simp [dragStep, nodePointerMove, h]
    simp only [List.map_cons, List.foldl_cons, hstep]
    exact ih _ h

theorem drag_commit_invariant (nodePos : Int × Int) (evs : List MoveUpEvent) :
    ∀ st : DragState,
      (st.isDragging = true ∧ st.moveCommits = []) ∨
        (st.isDragging = false ∧ st.moveCommits.length ≤ 1) →
      (((evs.map MoveUpEvent.toDragEvent).foldl (dragStep nodePos) st).isDragging = true ∧
          ((evs.map MoveUpEvent.toDragEvent).foldl (dragStep nodePos) st).moveCommits = []) ∨
        (((evs.map MoveUpEvent.toDragEvent).foldl (dragStep nodePos) st).isDragging = false ∧
          ((evs.map MoveUpEvent.toDragEvent).foldl (dragStep nodePos) st).moveCommits.length
            ≤ 1) := by
  induction evs with
  | nil =>
    intro st h
    exact h
  | cons e rest ih =>
    intro st h
    simp only [List.map_cons, List.foldl_cons]
    apply ih
    rcases h with ⟨hd, hc⟩ | ⟨hd, hc⟩
    · cases e with
      | move cx cy =>
        left
        simp [MoveUpEvent.toDragEvent, dragStep, nodePointerMove, hd, hc]
      | up cx cy =>
        right
        simp [MoveUpEvent.toDragEvent, dragStep, nodePointerUp, hd, hc]
    · cases e with
      | move cx cy =>
        right
        simp [MoveUpEvent.toDragEvent, dragStep, hd]
        exact hc
      | up cx cy =>
        right
        simp [MoveUpEvent.toDragEvent, dragStep, hd]
        exact hc

/-- C7: during a drag session started by a plain pointer-down, pointer
moves alone never commit anything to the persistence collaborator (first
conjunct); a pointer-up commits exactly one move, with the final pointer
position converted by the captured drag offset (second conjunct); and
whatever move/up events follow the pointer-down, at most one commit is
ever issued per session (third conjunct). -/
theorem c7_drag_commits_once (nodePos : Int × Int) (dx dy : Int)
    (moves : List (Int × Int)) (ux uy : Int) :
    (runDrag nodePos (DragEvent.down false dx dy ::
        moves.map (fun m => DragEvent.move m.1 m.2))).moveCommits = [] ∧
    (runDrag nodePos ((DragEvent.down false dx dy ::
        moves.map (fun m => DragEvent.move m.1 m.2)) ++ [DragEvent.up ux uy])).moveCommits
      = [(ux - (dx - nodePos.1), uy - (dy - nodePos.2))] ∧
    (∀ evs : List MoveUpEvent,
      ((runDrag nodePos (DragEvent.down false dx dy ::
          evs.map MoveUpEvent.toDragEvent)).moveCommits).length ≤ 1) := by
  have hdown : dragStep nodePos startDragState (DragEvent.down false dx dy)
      = ⟨true, (dx - nodePos.1, dy - nodePos.2), none, []⟩ := by
    simp [dragStep, nodePointerDown, startDragState]
  have hmid := dragMoves_no_commit nodePos moves
    ⟨true, (dx - nodePos.1, dy - nodePos.2), none, []⟩ rfl
  refine ⟨?_, ?_, ?_⟩
  · rw [runDrag, List.foldl_cons, hdown]
    exact hmid.2.2
  · rw [runDrag, List.cons_append, List.foldl_cons, hdown, List.foldl_append, List.foldl_cons,
      List.foldl_nil]
    simp [dragStep, nodePointerUp, hmid.1, hmid.2.1, hmid.2.2]
  · intro evs
    rw [runDrag, List.foldl_cons, hdown]
    have := drag_commit_invariant nodePos evs ⟨true, (dx - nodePos.1, dy - nodePos.2), none, []⟩
      (Or.inl ⟨rfl, rfl⟩)
    rcases this with ⟨_, hc⟩ | ⟨_, hc⟩
    · rw [hc]
      simp
    · exact hc

end MindMap
